import Mathlib

/-!
Formal model of src/gemma/gm/nn/gemma3n/_layers.py.

The source file defines three units: an Einsum module (parameterized
tensor contraction), a reduce_precision helper, and an RMSNorm module.
Tensor element values are idealized as exact rationals.  The fused
reciprocal square root is supplied by the external numeric engine
(jax.lax.rsqrt), so it is treated as an abstract function parameter of
the RMSNorm model.
-/

namespace Gemma3n

/-- Numeric element types of the tensors handled by the layer file,
covering the floating point dtypes used by the model plus integer
dtypes, on which jnp.finfo fails. -/
inductive DType
  | bf16 | f16 | f32 | f64 | i32 | i64
  deriving DecidableEq, Repr

/-- Exponent and mantissa bit widths (nexp, nmant) as reported by
jnp.finfo.  Integer dtypes have no finfo: jnp.finfo raises on them. -/
def DType.finfo : DType → Option (Nat × Nat)
  | .bf16 => some (8, 7)
  | .f16 => some (5, 10)
  | .f32 => some (8, 23)
  | .f64 => some (11, 52)
  | .i32 => none
  | .i64 => none

/-- Whether a dtype is a floating point type. -/
def DType.isFloat : DType → Bool
  | .bf16 | .f16 | .f32 | .f64 => true
  | .i32 | .i64 => false

/-- Framework default dtype for parameters created with dtype None: the
jax layer canonicalizes None to the default float, which is float32
when 64-bit mode is off (the default configuration). -/
def defaultDType : DType := .f32

/-- Result dtype of mixed arithmetic under the jax type promotion
rules, restricted to the dtypes modelled here: float64 dominates,
float32 absorbs the 16-bit floats, the two 16-bit floats join to
float32, any float beats any integer, and int32 with int64 gives
int64. -/
def DType.promote (a b : DType) : DType :=
  if a = b then a
  else match a, b with
    | .f64, _ | _, .f64 => .f64
    | .f32, _ | _, .f32 => .f32
    | .f16, .bf16 | .bf16, .f16 => .f32
    | .f16, _ | _, .f16 => .f16
    | .bf16, _ | _, .bf16 => .bf16
    | _, _ => .i64

/-- Round a rational to the nearest integer with ties to even, the
rounding mode of the XLA reduce_precision operation. -/
def rne (q : ℚ) : ℤ :=
  if q - ⌊q⌋ < 1/2 then ⌊q⌋
  else if 1/2 < q - ⌊q⌋ then ⌊q⌋ + 1
  else if 2 ∣ ⌊q⌋ then ⌊q⌋ else ⌊q⌋ + 1

/-- Round a rational to p mantissa bits: the scaled significand
q / 2 ^ (e - p), with e the base-2 exponent of q, is rounded to the
nearest integer with ties to even and scaled back.  This idealizes the
XLA reduce_precision rounding at unbounded exponent range: exponent
overflow to infinity and subnormal flushing are outside the exact
rational value model. -/
def roundPrec (p : ℕ) (q : ℚ) : ℚ :=
  if q = 0 then 0
  else ((rne (q / 2 ^ (Int.log 2 |q| - p)) : ℤ) : ℚ) * 2 ^ (Int.log 2 |q| - p)

/-- Tensor of rank 2 over exact rationals: a dtype together with the
rows along the last axis.  Rank 2 suffices for the layer contracts,
which act elementwise and along the last axis only. -/
structure Tensor where
  dtype : DType
  rows : List (List ℚ)
  deriving DecidableEq, Repr

/-- Shape profile of a tensor: the length of each row.  Two rank-2
tensors have the same shape exactly when their profiles agree. -/
def Tensor.shape (x : Tensor) : List ℕ := x.rows.map List.length

/-- Model of reduce_precision from the source: query jnp.finfo of the
dtype of x (which raises UnknownType on non-float dtypes) and apply
jax.lax.reduce_precision with the nexp and nmant of that same dtype,
rounding every element to nmant mantissa bits.  Pure function: the
input tensor is left untouched. -/
def reduce_precision (x : Tensor) : Except String Tensor :=
  match x.dtype.finfo with
  | some fi => .ok ⟨x.dtype, x.rows.map (List.map (roundPrec fi.2))⟩
  | none => .error "UnknownType"

/-- Contraction plan: the meaning of an einsum equation over one input
operand and one weight operand, both flattened to index lists.  Entry
o of the plan lists the (input index, weight index) pairs whose
products are summed to form output element o.  Every einsum equation
denotes such a plan, and any such plan is linear in the weight. -/
def einsumEval (plan : List (List (ℕ × ℕ))) (x w : List ℚ) : List ℚ :=
  plan.map (fun ps => (ps.map (fun ij => x.getD ij.1 0 * w.getD ij.2 0)).sum)

/-- Configuration of the Einsum module: declared weight shape,
parameter name, optional dtype override and optional scalar weight
multiplier.  The weight values themselves live in the external
parameter store and are passed to the call explicitly. -/
structure Einsum where
  shape : List ℕ
  weight_name : String := "w"
  dtype : Option DType := none
  w_scale : Option ℚ := none

/-- Weight actually used by the contraction.  The source guards the
multiplication with a Python truthiness test on w_scale, so the
multiplier is applied only when it is neither None nor zero. -/
def Einsum.scaledWeight (cfg : Einsum) (w : List ℚ) : List ℚ :=
  match cfg.w_scale with
  | some s => if s = 0 then w else w.map (fun a => a * s)
  | none => w

/-- Forward call of the Einsum module on an equation plan, input x and
stored weight w. -/
def Einsum.call (cfg : Einsum) (plan : List (List (ℕ × ℕ)))
    (x w : List ℚ) : List ℚ :=
  einsumEval plan x (cfg.scaledWeight w)

/-- Dtype of the created weight parameter: the source passes
"self.dtype if self.dtype is not None else None" as the dtype of the
initial-value function, and the jax layer resolves None to the
framework default float32. -/
def Einsum.weightDType (cfg : Einsum) : DType :=
  cfg.dtype.getD defaultDType

/-- Dtype of the contraction output for input dtype xd, under the jax
type promotion rules. -/
def Einsum.outDType (cfg : Einsum) (xd : DType) : DType :=
  xd.promote cfg.weightDType

/-- Mean of the squared entries of one row: jnp.mean(jnp.square(x),
axis=-1, keepdims=True) restricted to that row. -/
def meanSq (r : List ℚ) : ℚ :=
  (r.map (fun a => a * a)).sum / r.length

/-- Argument handed to jax.lax.rsqrt in the source: the mean square
plus the fixed epsilon 1e-06. -/
def rsqrtArg (r : List ℚ) : ℚ :=
  meanSq r + 1 / 1000000

/-- One row of x * jax.lax.rsqrt(var + 1e-06): the kept size-1 last
axis broadcasts the per-row scalar over the row. -/
def normRow (rsqrt : ℚ → ℚ) (r : List ℚ) : List ℚ :=
  r.map (fun a => a * rsqrt (rsqrtArg r))

/-- Learned-scale step: elementwise multiplication of a normalized row
by (1 + scale) when scale_plus_one is set and by scale otherwise.  In
the source the rank-1 scale vector is first reshaped to the rank of
the normalized tensor so that it broadcasts along the last axis only,
which the rowwise model realizes by zipping each row with the scale
vector. -/
def scaleRow (plus_one : Bool) (scale r : List ℚ) : List ℚ :=
  r.zipWith (fun a s => a * (if plus_one then 1 + s else s)) scale

/-- Configuration flags of the RMSNorm module, with the defaults of
the source.  The scale initial values default to zeros in the source;
the scale vector itself is owned by the external parameter store and
is passed to the call explicitly. -/
structure RMSNorm where
  with_scale : Bool := true
  scale_plus_one : Bool := true
  guard_against_excess_precision : Bool := false

/-- Forward call of RMSNorm: optional precision reduction, mean square
along the last axis with kept dims, multiplication by the fused
reciprocal square root of (var + 1e-06), then the optional learned
scale.  The fused rsqrt is an external engine primitive and enters the
model as the function parameter rsqrt.  The call is split into the
pure normalization body applyNorm and the guard step around it. -/
def RMSNorm.applyNorm (cfg : RMSNorm) (rsqrt : ℚ → ℚ) (scale : List ℚ)
    (x0 : Tensor) : Tensor :=
  let normed := x0.rows.map (normRow rsqrt)
  ⟨x0.dtype,
    if cfg.with_scale then normed.map (scaleRow cfg.scale_plus_one scale)
    else normed⟩

/-- Forward call of RMSNorm: the optional precision reduction followed
by the normalization body; a failing precision reduction (integer
dtype) propagates its error. -/
def RMSNorm.call (cfg : RMSNorm) (rsqrt : ℚ → ℚ) (scale : List ℚ)
    (x : Tensor) : Except String Tensor :=
  match (if cfg.guard_against_excess_precision then reduce_precision x else .ok x) with
  | .error e => .error e
  | .ok x0 => .ok (cfg.applyNorm rsqrt scale x0)

/-- Modelled from the spec: the unscaled normalization formula
"x * rsqrt(mean(x^2, last_axis) + 1e-6)", with the mean kept as a
size-1 axis and broadcast back over the last axis. -/
def specUnscaledRMSNorm (rsqrt : ℚ → ℚ) (x : Tensor) : Tensor :=
  ⟨x.dtype,
    x.rows.map (fun r =>
      r.map (fun a =>
        a * rsqrt ((r.map (fun b => b * b)).sum / r.length + 1 / 1000000)))⟩

theorem rne_intCast (k : ℤ) : rne (k : ℚ) = k := by
  simp [rne]

theorem floor_le_rne (q : ℚ) : ⌊q⌋ ≤ rne q := by
  unfold rne
  split_ifs <;> omega

theorem rne_le_floor_add_one (q : ℚ) : rne q ≤ ⌊q⌋ + 1 := by
  unfold rne
  split_ifs <;> omega

theorem le_rne_of_le (m : ℤ) (q : ℚ) (h : (m : ℚ) ≤ q) : m ≤ rne q :=
  le_trans (Int.le_floor.mpr h) (floor_le_rne q)

theorem rne_le_of_le (m : ℤ) (q : ℚ) (h : q ≤ (m : ℚ)) : rne q ≤ m := by
  rcases eq_or_lt_of_le h with he | hlt
  · rw [he, rne_intCast]
  · have hf : ⌊q⌋ < m := Int.floor_lt.mpr hlt
    have h1 := rne_le_floor_add_one q
    omega

theorem log2_eq_of_bounds (e : ℤ) (q : ℚ) (hq : 0 < q)
    (h1 : (2:ℚ) ^ e ≤ q) (h2 : q < (2:ℚ) ^ (e + 1)) : Int.log 2 q = e := by
  have hle : e ≤ Int.log 2 q := by
    rw [← Int.zpow_le_iff_le_log one_lt_two hq]
    exact_mod_cast h1
  have hlt : Int.log 2 q < e + 1 := by
    rw [← Int.lt_zpow_iff_log_lt one_lt_two hq]
    exact_mod_cast h2
  omega

theorem roundPrec_fixed_aux (p : ℕ) (k s : ℤ) (h1 : 2 ^ p ≤ |k|)
    (h2 : |k| < 2 ^ (p + 1)) :
    roundPrec p ((k : ℚ) * 2 ^ s) = (k : ℚ) * 2 ^ s := by
  have hppos : (0:ℤ) < 2 ^ p := pow_pos two_pos p
  have hk0 : k ≠ 0 := by
    intro h
    rw [h, abs_zero] at h1
    exact absurd h1 hppos.not_le
  have h2s : (0:ℚ) < 2 ^ s := zpow_pos two_pos s
  have hq0 : (k : ℚ) * 2 ^ s ≠ 0 :=
    mul_ne_zero (Int.cast_ne_zero.mpr hk0) (ne_of_gt h2s)
  have habs : |(k : ℚ) * 2 ^ s| = |(k : ℚ)| * 2 ^ s := by
    rw [abs_mul, abs_of_pos h2s]
  have hlow : (2:ℚ) ^ ((p:ℤ) + s) ≤ |(k : ℚ) * 2 ^ s| := by
    rw [habs, zpow_add₀ (two_ne_zero), zpow_natCast]
    apply mul_le_mul_of_nonneg_right _ h2s.le
    exact_mod_cast h1
  have hhigh : |(k : ℚ) * 2 ^ s| < (2:ℚ) ^ ((p:ℤ) + s + 1) := by
    rw [habs]
    have hex : (p:ℤ) + s + 1 = ((p + 1 : ℕ) : ℤ) + s := by push_cast; ring
    rw [hex, zpow_add₀ two_ne_zero, zpow_natCast]
    apply mul_lt_mul_of_pos_right _ h2s
    exact_mod_cast h2
  have hlog : Int.log 2 |(k : ℚ) * 2 ^ s| = (p:ℤ) + s :=
    log2_eq_of_bounds _ _ (abs_pos.mpr hq0) hlow hhigh
  rw [roundPrec, if_neg hq0, hlog]
  have he : (p:ℤ) + s - p = s := by ring
  rw [he, mul_div_cancel_right₀ _ (ne_of_gt h2s), rne_intCast]

theorem roundPrec_fixed (p : ℕ) (k s : ℤ) (h1 : 2 ^ p ≤ |k|)
    (h2 : |k| ≤ 2 ^ (p + 1)) :
    roundPrec p ((k : ℚ) * 2 ^ s) = (k : ℚ) * 2 ^ s := by
  rcases lt_or_eq_of_le h2 with hlt | heq
  · exact roundPrec_fixed_aux p k s h1 hlt
  · have hdvd : 2 ∣ k := by
      rcases (abs_eq (pow_nonneg (by norm_num) (p+1))).mp heq with hk | hk
      · exact hk ▸ Dvd.intro (2 ^ p) (by rw [pow_succ]; ring)
      · exact hk ▸ (Dvd.intro (2 ^ p) (by rw [pow_succ]; ring)).neg_right
    obtain ⟨m, hm⟩ := hdvd
    have hmabs : |m| = 2 ^ p := by
      have : |k| = 2 * |m| := by rw [hm, abs_mul]; norm_num
      rw [this, pow_succ] at heq
      omega
    have hcast : (k : ℚ) * 2 ^ s = (m : ℚ) * 2 ^ (s + 1) := by
      rw [hm, zpow_add_one₀ (two_ne_zero)]
      push_cast
      ring
    rw [hcast]
    apply roundPrec_fixed_aux p m (s + 1) (le_of_eq hmabs.symm)
    rw [hmabs, pow_succ]
    have : (0:ℤ) < 2 ^ p := pow_pos two_pos p
    omega

theorem roundPrec_repr (p : ℕ) (q : ℚ) (hq : q ≠ 0) :
    ∃ k s : ℤ, roundPrec p q = (k : ℚ) * 2 ^ s ∧ 2 ^ p ≤ |k| ∧ |k| ≤ 2 ^ (p + 1) := by
  have haq : 0 < |q| := abs_pos.mpr hq
  set e := Int.log 2 |q| with he
  set u : ℚ := 2 ^ (e - p) with hu
  have hupos : (0:ℚ) < u := zpow_pos two_pos _
  have hqu0 : q / u ≠ 0 := div_ne_zero hq (ne_of_gt hupos)
  have hl : (2:ℚ) ^ e ≤ |q| := by exact_mod_cast Int.zpow_log_le_self one_lt_two haq
  have hh : |q| < (2:ℚ) ^ (e + 1) := by exact_mod_cast Int.lt_zpow_succ_log_self one_lt_two |q|
  have habsdiv : |q / u| = |q| / u := by rw [abs_div, abs_of_pos hupos]
  have hsl : (2:ℚ) ^ (p:ℤ) ≤ |q / u| := by
    rw [habsdiv, le_div_iff₀ hupos]
    calc (2:ℚ) ^ (p:ℤ) * u = 2 ^ ((p:ℤ) + (e - p)) := (zpow_add₀ two_ne_zero _ _).symm
    _ = 2 ^ e := by rw [add_sub_cancel]
    _ ≤ |q| := hl
  have hsh : |q / u| < (2:ℚ) ^ ((p:ℤ) + 1) := by
    rw [habsdiv, div_lt_iff₀ hupos]
    calc |q| < 2 ^ (e + 1) := hh
    _ = 2 ^ ((p:ℤ) + 1) * u := by
        rw [← zpow_add₀ two_ne_zero]
        congr 1
        ring
  have hcastp : ((2 ^ p : ℤ) : ℚ) = (2:ℚ) ^ (p:ℤ) := by
    push_cast
    rw [zpow_natCast]
  have hcastp1 : ((2 ^ (p+1) : ℤ) : ℚ) = (2:ℚ) ^ ((p:ℤ) + 1) := by
    push_cast
    rw [← zpow_natCast]
    congr 1
  refine ⟨rne (q / u), e - p, ?_, ?_, ?_⟩
  · rw [roundPrec, if_neg hq]
  · rcases hqu0.lt_or_lt with hneg | hpos
    · have habs' : |q / u| = -(q / u) := abs_of_neg hneg
      have hup : rne (q / u) ≤ -(2 ^ p) := by
        apply rne_le_of_le
        push_cast
        rw [zpow_natCast] at hsl
        linarith [hsl, habs'.symm.le]
      have : (0:ℤ) < 2 ^ p := pow_pos two_pos p
      rw [abs_of_neg (by omega)]
      omega
    · have habs' : |q / u| = q / u := abs_of_pos hpos
      have hlo : (2 ^ p : ℤ) ≤ rne (q / u) := by
        apply le_rne_of_le
        rw [hcastp, ← habs']
        exact hsl
      have : (0:ℤ) < 2 ^ p := pow_pos two_pos p
      rw [abs_of_pos (by omega)]
      exact hlo
  · rcases hqu0.lt_or_lt with hneg | hpos
    · have habs' : |q / u| = -(q / u) := abs_of_neg hneg
      have hlo : -(2 ^ (p+1)) ≤ rne (q / u) := by
        apply le_rne_of_le
        push_cast
        rw [← zpow_natCast (2:ℚ) (p+1)] at *
        have : -(q/u) < (2:ℚ) ^ ((p:ℤ)+1) := habs' ▸ hsh
        have hx : ((p+1 : ℕ) : ℤ) = (p:ℤ) + 1 := by push_cast; ring
        rw [hx]
        linarith
      have hup : rne (q / u) ≤ -(2 ^ p) := by
        apply rne_le_of_le
        push_cast
        rw [zpow_natCast] at hsl
        linarith [hsl, habs'.symm.le]
      have : (0:ℤ) < 2 ^ p := pow_pos two_pos p
      rw [abs_of_neg (by omega)]
      omega
    · have habs' : |q / u| = q / u := abs_of_pos hpos
      have hup : rne (q / u) ≤ 2 ^ (p+1) := by
        apply rne_le_of_le
        rw [hcastp1, ← habs']
        exact hsh.le
      have hlo : (2 ^ p : ℤ) ≤ rne (q / u) := by
        apply le_rne_of_le
        rw [hcastp, ← habs']
        exact hsl
      have : (0:ℤ) < 2 ^ p := pow_pos two_pos p
      rw [abs_of_pos (by omega)]
      exact hup

theorem roundPrec_idem (p : ℕ) (q : ℚ) :
    roundPrec p (roundPrec p q) = roundPrec p q := by
  by_cases hq : q = 0
  · simp [hq, roundPrec]
  · obtain ⟨k, s, heq, h1, h2⟩ := roundPrec_repr p q hq
    rw [heq]
    exact roundPrec_fixed p k s h1 h2



theorem map_map_length (g : ℚ → ℚ) (rows : List (List ℚ)) :
    (rows.map (List.map g)).map List.length = rows.map List.length := by
  rw [List.map_map]
  apply List.map_congr_left
  intro r _
  simp

theorem reduce_precision_cases (x y : Tensor) (h : reduce_precision x = .ok y) :
    y.dtype = x.dtype ∧ ∃ p, y.rows = x.rows.map (List.map (roundPrec p)) := by
  unfold reduce_precision at h
  cases hfi : x.dtype.finfo with
  | none =>
    rw [hfi] at h
    exact absurd h (by simp)
  | some fi =>
    rw [hfi] at h
    cases h
    exact ⟨rfl, fi.2, rfl⟩

/-- C1: with the learned scale disabled and precision reduction
disabled, the RMSNorm output equals
x * rsqrt(mean(x^2, last_axis) + 1e-6) exactly, with the epsilon the
fixed constant 1e-6; this holds for every input tensor, every scale
vector and every engine rsqrt. -/
theorem rmsnorm_unscaled_formula (rsqrt : ℚ → ℚ) (scale : List ℚ)
    (sp : Bool) (x : Tensor) :
    RMSNorm.call ⟨false, sp, false⟩ rsqrt scale x
      = .ok (specUnscaledRMSNorm rsqrt x) := rfl

/-- C5: reduce_precision is idempotent: applying it twice is the same
as applying it once, for every input tensor. -/
theorem reduce_precision_idem (x : Tensor) :
    (reduce_precision x).bind reduce_precision = reduce_precision x := by
  cases x with
  | mk d rows =>
    cases hfi : DType.finfo d with
    | none => simp [reduce_precision, hfi, Except.bind]
    | some fi =>
      simp [reduce_precision, hfi, Except.bind]
      intro r _ a _
      exact roundPrec_idem fi.2 a

/-- C7: reduce_precision succeeds exactly on floating-point dtypes,
and on success it returns a tensor of the same declared dtype and the
same shape as the input; the model is a pure function with no side
effects. -/
theorem reduce_precision_float_total (x : Tensor) :
    ((reduce_precision x).isOk = x.dtype.isFloat)
    ∧ ∀ y, reduce_precision x = .ok y → y.dtype = x.dtype ∧ y.shape = x.shape := by
  constructor
  · cases x with
    | mk d rows =>
      cases d <;> simp [reduce_precision, DType.finfo, DType.isFloat, Except.isOk,
        Except.toBool]
  · intro y h
    obtain ⟨hd, p, hrows⟩ := reduce_precision_cases x y h
    refine ⟨hd, ?_⟩
    rw [Tensor.shape, Tensor.shape, hrows, map_map_length]

/-- Witness for C7: a concrete float32 tensor on which the success
branch of the theorem is instantiated. -/
theorem reduce_precision_float_total_witness :
    (Tensor.mk DType.f32 [[]]).dtype = (Tensor.mk DType.f32 [[]]).dtype
    ∧ (Tensor.mk DType.f32 [[]]).shape = (Tensor.mk DType.f32 [[]]).shape :=
  (reduce_precision_float_total ⟨DType.f32, [[]]⟩).2 ⟨DType.f32, [[]]⟩ rfl

/-- C10: the argument passed to the reciprocal square root inside
RMSNorm is at least 1e-6, and in particular strictly positive, for
every row of every real-valued input: the mean of squared values is
non-negative and 1e-6 is added to it. -/
theorem rsqrtArg_ge_eps (r : List ℚ) :
    1 / 1000000 ≤ rsqrtArg r ∧ 0 < rsqrtArg r := by
  have hm : 0 ≤ meanSq r := by
    apply div_nonneg
    · apply List.sum_nonneg
      intro a ha
      obtain ⟨b, _, rfl⟩ := List.mem_map.mp ha
      exact mul_self_nonneg b
    · exact Nat.cast_nonneg _
  constructor
  · rw [rsqrtArg]
    linarith
  · rw [rsqrtArg]
    linarith


theorem call_guard_false (cfg : RMSNorm) (rsqrt : ℚ → ℚ) (scale : List ℚ)
    (x : Tensor) (hg : cfg.guard_against_excess_precision = false) :
    RMSNorm.call cfg rsqrt scale x = .ok (cfg.applyNorm rsqrt scale x) := by
  unfold RMSNorm.call
  rw [hg]
  rfl

theorem call_guard_true (cfg : RMSNorm) (rsqrt : ℚ → ℚ) (scale : List ℚ)
    (x : Tensor) (hg : cfg.guard_against_excess_precision = true) :
    RMSNorm.call cfg rsqrt scale x =
      match reduce_precision x with
      | .error e => .error e
      | .ok x0 => .ok (cfg.applyNorm rsqrt scale x0) := by
  unfold RMSNorm.call
  rw [hg]
  rfl

theorem applyNorm_shape (cfg : RMSNorm) (rsqrt : ℚ → ℚ) (scale : List ℚ)
    (x0 : Tensor) (hlen : ∀ r ∈ x0.rows, r.length ≤ scale.length) :
    (cfg.applyNorm rsqrt scale x0).shape = x0.shape := by
  obtain ⟨ws, sp, g⟩ := cfg
  cases ws with
  | false =>
    simp only [RMSNorm.applyNorm, Tensor.shape, Bool.false_eq_true, if_false]
    rw [List.map_map]
    apply List.map_congr_left
    intro r _
    simp [normRow]
  | true =>
    simp only [RMSNorm.applyNorm, Tensor.shape, if_true]
    rw [List.map_map, List.map_map]
    apply List.map_congr_left
    intro r hr
    simp only [Function.comp_apply, scaleRow, List.length_zipWith, normRow,
      List.length_map]
    exact Nat.min_eq_left (hlen r hr)

theorem call_ok_structure (cfg : RMSNorm) (rsqrt : ℚ → ℚ) (scale : List ℚ)
    (x y : Tensor) (h : RMSNorm.call cfg rsqrt scale x = .ok y) :
    ∃ x0 : Tensor, y = cfg.applyNorm rsqrt scale x0 ∧ x0.shape = x.shape := by
  cases hg : cfg.guard_against_excess_precision with
  | false =>
    rw [call_guard_false cfg rsqrt scale x hg] at h
    injection h with h1
    exact ⟨x, h1.symm, rfl⟩
  | true =>
    rw [call_guard_true cfg rsqrt scale x hg] at h
    cases hrp : reduce_precision x with
    | error e =>
      rw [hrp] at h
      exact absurd h (by simp)
    | ok x0 =>
      rw [hrp] at h
      injection h with h1
      obtain ⟨hd, p, hrows⟩ := reduce_precision_cases x x0 hrp
      refine ⟨x0, h1.symm, ?_⟩
      rw [Tensor.shape, Tensor.shape, hrows, map_map_length]

/-- C2: for every configuration of the three flags and every input
whose last-axis rows are covered by the scale vector, a successful
RMSNorm call returns a tensor of the same shape as the input; the
model is a pure function of its arguments, so the input tensor is
never mutated. -/
theorem rmsnorm_shape (cfg : RMSNorm) (rsqrt : ℚ → ℚ) (scale : List ℚ)
    (x y : Tensor) (hlen : ∀ r ∈ x.rows, r.length ≤ scale.length)
    (h : RMSNorm.call cfg rsqrt scale x = .ok y) :
    y.shape = x.shape := by
  obtain ⟨x0, rfl, hsh⟩ := call_ok_structure cfg rsqrt scale x y h
  have hlen0 : ∀ r ∈ x0.rows, r.length ≤ scale.length := by
    intro r hr
    have hmem : r.length ∈ x0.shape := List.mem_map_of_mem List.length hr
    rw [hsh] at hmem
    obtain ⟨r0, hr0, hlr⟩ := List.mem_map.mp hmem
    rw [← hlr]
    exact hlen r0 hr0
  rw [applyNorm_shape cfg rsqrt scale x0 hlen0, hsh]

/-- Witness for C2 at a concrete configuration, scale and input. -/
theorem rmsnorm_shape_witness :
    Tensor.shape ⟨DType.f32, [[8, 6]]⟩ = Tensor.shape ⟨DType.f32, [[2, 3]]⟩ := by
  apply rmsnorm_shape ⟨true, true, false⟩ (fun _ => 2) [1, 0] ⟨DType.f32, [[2, 3]]⟩
  · intro r hr
    simp at hr
    simp [hr]
  · rw [call_guard_false _ _ _ _ rfl]
    norm_num [RMSNorm.applyNorm, normRow, scaleRow]

theorem scaleRow_one (scale r : List ℚ) (hz : ∀ s ∈ scale, s = 0)
    (hlen : r.length ≤ scale.length) : scaleRow true scale r = r := by
  induction r generalizing scale with
  | nil => simp [scaleRow]
  | cons a r ih =>
    cases scale with
    | nil => simp at hlen
    | cons s tl =>
      have hs : s = 0 := hz s (List.mem_cons_self s tl)
      have ht : ∀ u ∈ tl, u = 0 := fun u hu => hz u (List.mem_cons_of_mem s hu)
      have hl : r.length ≤ tl.length := by simpa using hlen
      simp only [scaleRow, List.zipWith_cons_cons] at ih ⊢
      rw [hs]
      norm_num
      exact ih tl ht hl

theorem scaleRow_zero_mem (scale r : List ℚ) (hz : ∀ s ∈ scale, s = 0) :
    ∀ a ∈ scaleRow false scale r, a = 0 := by
  induction r generalizing scale with
  | nil => simp [scaleRow]
  | cons b r ih =>
    cases scale with
    | nil => simp [scaleRow]
    | cons s tl =>
      intro a ha
      simp only [scaleRow, List.zipWith_cons_cons, List.mem_cons] at ha
      rcases ha with ha | ha
      · rw [ha, hz s (List.mem_cons_self s tl)]
        norm_num
      · exact ih tl (fun u hu => hz u (List.mem_cons_of_mem s hu)) a ha

/-- C3: with an all-zero scale vector covering the last axis and the
offset-from-one convention enabled, the RMSNorm output equals the
output with the learned scale disabled, on every input: the learned
multiplier is the identity. -/
theorem rmsnorm_zero_scale_offset (rsqrt : ℚ → ℚ) (g : Bool) (scale : List ℚ)
    (x : Tensor) (hz : ∀ s ∈ scale, s = 0)
    (hlen : ∀ r ∈ x.rows, r.length ≤ scale.length) :
    RMSNorm.call ⟨true, true, g⟩ rsqrt scale x
      = RMSNorm.call ⟨false, true, g⟩ rsqrt scale x := by
  have happ : ∀ x0 : Tensor, (∀ r ∈ x0.rows, r.length ≤ scale.length) →
      RMSNorm.applyNorm ⟨true, true, g⟩ rsqrt scale x0
        = RMSNorm.applyNorm ⟨false, true, g⟩ rsqrt scale x0 := by
    intro x0 hlen0
    simp only [RMSNorm.applyNorm, Bool.false_eq_true, if_false, if_true,
      Tensor.mk.injEq, true_and]
    rw [List.map_map]
    apply List.map_congr_left
    intro r hr
    simp only [Function.comp_apply]
    apply scaleRow_one scale _ hz
    simp only [normRow, List.length_map]
    exact hlen0 r hr
  cases g with
  | false =>
    rw [call_guard_false _ _ _ _ rfl, call_guard_false _ _ _ _ rfl, happ x hlen]
  | true =>
    rw [call_guard_true _ _ _ _ rfl, call_guard_true _ _ _ _ rfl]
    cases hrp : reduce_precision x with
    | error e => rfl
    | ok x0 =>
      obtain ⟨hd, p, hrows⟩ := reduce_precision_cases x x0 hrp
      have hlen0 : ∀ r ∈ x0.rows, r.length ≤ scale.length := by
        intro r hr
        rw [hrows] at hr
        obtain ⟨r0, hr0, rfl⟩ := List.mem_map.mp hr
        simpa using hlen r0 hr0
      exact congrArg Except.ok (happ x0 hlen0)

/-- Witness for C3 at a concrete input with an all-zero scale. -/
theorem rmsnorm_zero_scale_offset_witness :
    RMSNorm.call ⟨true, true, false⟩ (fun _ => 1) [0] ⟨DType.f32, [[5]]⟩
      = RMSNorm.call ⟨false, true, false⟩ (fun _ => 1) [0] ⟨DType.f32, [[5]]⟩ :=
  rmsnorm_zero_scale_offset (fun _ => 1) false [0] ⟨DType.f32, [[5]]⟩
    (by simp) (by simp)

/-- C4: with an all-zero scale vector and the offset-from-one
convention disabled, every element of a successful RMSNorm output is
zero, on every input and with any guard flag. -/
theorem rmsnorm_zero_scale_no_offset (rsqrt : ℚ → ℚ) (g : Bool) (scale : List ℚ)
    (x y : Tensor) (hz : ∀ s ∈ scale, s = 0)
    (h : RMSNorm.call ⟨true, false, g⟩ rsqrt scale x = .ok y) :
    ∀ r ∈ y.rows, ∀ a ∈ r, a = 0 := by
  obtain ⟨x0, rfl, hsh⟩ := call_ok_structure _ rsqrt scale x y h
  intro r hr
  simp only [RMSNorm.applyNorm, Bool.false_eq_true, if_false, if_true] at hr
  rw [List.map_map] at hr
  obtain ⟨r0, _, rfl⟩ := List.mem_map.mp hr
  exact scaleRow_zero_mem scale _ hz

/-- Witness for C4: concrete run whose output element is forced to
zero by the theorem. -/
theorem rmsnorm_zero_scale_no_offset_witness :
    RMSNorm.call ⟨true, false, false⟩ (fun _ => 1) [0] ⟨DType.f32, [[5]]⟩
      = .ok ⟨DType.f32, [[0]]⟩ ∧ (0 : ℚ) = 0 := by
  have hcall : RMSNorm.call ⟨true, false, false⟩ (fun _ => 1) [0] ⟨DType.f32, [[5]]⟩
      = .ok ⟨DType.f32, [[0]]⟩ := by
    rw [call_guard_false _ _ _ _ rfl]
    norm_num [RMSNorm.applyNorm, normRow, scaleRow]
  refine ⟨hcall, ?_⟩
  exact rmsnorm_zero_scale_no_offset (fun _ => 1) false [0] ⟨DType.f32, [[5]]⟩
    ⟨DType.f32, [[0]]⟩ (by simp) hcall ([0] : List ℚ) (by simp) 0 (by simp)


theorem getD_map_mul (w : List ℚ) (c : ℚ) (j : ℕ) :
    (w.map (fun a => a * c)).getD j 0 = w.getD j 0 * c := by
  induction w generalizing j with
  | nil => simp
  | cons a w ih =>
    cases j with
    | zero => simp
    | succ j => simpa using ih j

theorem sum_map_mul (l : List (ℕ × ℕ)) (f : ℕ × ℕ → ℚ) (c : ℚ) :
    (l.map (fun i => f i * c)).sum = (l.map f).sum * c := by
  induction l with
  | nil => simp
  | cons a l ih => simp [ih, add_mul]

theorem einsumEval_mul (plan : List (List (ℕ × ℕ))) (x w : List ℚ) (c : ℚ) :
    einsumEval plan x (w.map (fun a => a * c))
      = (einsumEval plan x w).map (fun a => a * c) := by
  unfold einsumEval
  rw [List.map_map]
  apply List.map_congr_left
  intro ps _
  simp only [Function.comp_apply]
  rw [← sum_map_mul]
  congr 1
  apply List.map_congr_left
  intro ij _
  rw [getD_map_mul]
  ring

/-- C9: on every call, a configured multiplier that is non-zero and
non-null multiplies every weight element before the contraction is
evaluated; a zero or null multiplier leaves the weight unmultiplied,
because the source guards the scaling with a Python truthiness test. -/
theorem einsum_scale_truthiness (cfg : Einsum) (plan : List (List (ℕ × ℕ)))
    (x w : List ℚ) (s : ℚ) :
    (cfg.w_scale = some s → s ≠ 0 →
      Einsum.call cfg plan x w = einsumEval plan x (w.map (fun a => a * s)))
    ∧ ((cfg.w_scale = none ∨ cfg.w_scale = some 0) →
      Einsum.call cfg plan x w = einsumEval plan x w) := by
  constructor
  · intro h hs
    simp only [Einsum.call, Einsum.scaledWeight, h, if_neg hs]
  · rintro (h | h)
    · simp only [Einsum.call, Einsum.scaledWeight, h]
    · simp [Einsum.call, Einsum.scaledWeight, h]

/-- Witness for C9: one call with a non-zero multiplier and one with a
null multiplier. -/
theorem einsum_scale_truthiness_witness :
    Einsum.call ⟨[1], "w", none, some 2⟩ [[(0, 0)]] [3] [5]
      = einsumEval [[(0, 0)]] [3] ([5].map (fun a => a * 2))
    ∧ Einsum.call ⟨[1], "w", none, none⟩ [[(0, 0)]] [3] [5]
      = einsumEval [[(0, 0)]] [3] [5] :=
  ⟨(einsum_scale_truthiness ⟨[1], "w", none, some 2⟩ [[(0, 0)]] [3] [5] 2).1 rfl
      (by norm_num),
   (einsum_scale_truthiness ⟨[1], "w", none, none⟩ [[(0, 0)]] [3] [5] 0).2
      (Or.inl rfl)⟩

/-- C6 counterexample: with the multiplier configured as 0 the source
skips the scaling (Python truthiness), so the output is the plain
contraction, while scaling the multiplier-1 output by 0 gives zero:
the two disagree on a weight of 1 and input of 1. -/
theorem einsum_scale_zero_cex :
    Einsum.call ⟨[1], "w", none, some 0⟩ [[(0, 0)]] [1] [1]
      ≠ (Einsum.call ⟨[1], "w", none, some 1⟩ [[(0, 0)]] [1] [1]).map
          (fun a => a * 0) := by
  norm_num [Einsum.call, Einsum.scaledWeight, einsumEval]

/-- C6 amended: for every configured multiplier m other than zero (and
other than null), the call equals the multiplier-1 call on the same
weight followed by elementwise multiplication of the output by m; at
m = 0 the source skips the scaling instead. -/
theorem einsum_scale_factors (cfg : Einsum) (plan : List (List (ℕ × ℕ)))
    (x w : List ℚ) (m : ℚ) (hm : m ≠ 0) (hcfg : cfg.w_scale = some m) :
    Einsum.call cfg plan x w
      = (Einsum.call ⟨cfg.shape, cfg.weight_name, cfg.dtype, some 1⟩ plan x w).map
          (fun a => a * m) := by
  simp only [Einsum.call, Einsum.scaledWeight, hcfg, if_neg hm,
    if_neg (one_ne_zero : (1 : ℚ) ≠ 0), mul_one, List.map_id, List.map_id']
  exact einsumEval_mul plan x w m

/-- Witness for the amended C6 at multiplier 2. -/
theorem einsum_scale_factors_witness :
    Einsum.call ⟨[1], "w", none, some 2⟩ [[(0, 0)]] [3] [5]
      = (Einsum.call ⟨[1], "w", none, some 1⟩ [[(0, 0)]] [3] [5]).map
          (fun a => a * 2) :=
  einsum_scale_factors ⟨[1], "w", none, some 2⟩ [[(0, 0)]] [3] [5] 2
    (by norm_num) rfl

/-- C8 counterexample: with no dtype override and a bfloat16 input,
the created weight dtype is float32, not the input dtype, and the
contraction result dtype is float32 as well, so neither the weight
default nor the contraction ambient type follows the input type. -/
theorem einsum_default_dtype_cex :
    Einsum.weightDType ⟨[4, 8], "w", none, none⟩ = DType.f32
    ∧ Einsum.outDType ⟨[4, 8], "w", none, none⟩ DType.bf16 = DType.f32
    ∧ DType.f32 ≠ DType.bf16 := by
  decide

/-- C8 amended: with no dtype override, the weight dtype is the
framework default float32 independently of the input dtype, and the
contraction result dtype (promotion of input and weight dtypes)
equals the input dtype exactly when the input is float32 or
float64. -/
theorem einsum_default_dtype (cfg : Einsum) (xd : DType) (h : cfg.dtype = none) :
    cfg.weightDType = DType.f32
    ∧ (cfg.outDType xd = xd ↔ xd = DType.f32 ∨ xd = DType.f64) := by
  have hw : cfg.weightDType = DType.f32 := by
    rw [Einsum.weightDType, h]
    rfl
  refine ⟨hw, ?_⟩
  rw [Einsum.outDType, hw]
  cases xd <;> decide

/-- Witness for the amended C8 at a bfloat16 input. -/
theorem einsum_default_dtype_witness :
    Einsum.weightDType ⟨[2], "w", none, none⟩ = DType.f32
    ∧ (Einsum.outDType ⟨[2], "w", none, none⟩ DType.bf16 = DType.bf16
        ↔ DType.bf16 = DType.f32 ∨ DType.bf16 = DType.f64) :=
  einsum_default_dtype ⟨[2], "w", none, none⟩ DType.bf16 rfl

end Gemma3n
